import Mathlib

/-!
A shallow embedding, in Lean 4, of the hierarchy-reconstruction and
fixed-width rendering core of the `jot` note manager (`src/jot/jot.py`,
with `src/jot.py` an earlier stage of the same program).  Python strings
are modelled as `List Char`, SQLite query results as explicit lists, and
the unboundedly recursive `find_children` as a fuel-indexed function
(`none` means the recursion did not complete within the given fuel, for
any fuel: the Python recursion never returns).
-/

namespace JotModel

/-- Python strings are modelled as lists of characters. -/
abbrev Str := List Char

/-- Python `s.ljust(w, fill)`: pad on the right up to width `w` (no-op when
`s` is already at least `w` long). -/
def pyLjust (s : Str) (w : Nat) (fill : Char) : Str :=
  s ++ List.replicate (w - s.length) fill

/-- Python `s.rjust(w, fill)`. -/
def pyRjust (s : Str) (w : Nat) (fill : Char) : Str :=
  List.replicate (w - s.length) fill ++ s

/-- Python `s.center(w, fill)`; CPython places the extra fill character
according to the parity of `w` (`left = marg // 2 + (marg & w & 1)`). -/
def pyCenter (s : Str) (w : Nat) (fill : Char) : Str :=
  let marg := w - s.length
  let left := marg / 2 + (marg &&& w &&& 1)
  List.replicate left fill ++ s ++ List.replicate (marg - left) fill

/-- Python `s.split(sep)` for a one-character separator. -/
def splitOnChar (sep : Char) : Str → List Str
  | [] => [[]]
  | c :: r =>
    match splitOnChar sep r with
    | [] => [[]]
    | h :: t => if c = sep then [] :: h :: t else (c :: h) :: t

/-- Python `s.lower()` (ASCII). -/
def pyLower (s : Str) : Str := s.map Char.toLower

/-- Python `s.upper()` (ASCII). -/
def pyUpper (s : Str) : Str := s.map Char.toUpper

/-- `True` for the characters Python's `str.lstrip()` removes (ASCII). -/
def pySpace (c : Char) : Bool :=
  c = ' ' || c = '\t' || c = '\r' || c = '\n' || c = '\x0b' || c = '\x0c'

/-- Python `s.lstrip()`. -/
def pyLstrip (s : Str) : Str := s.dropWhile pySpace

/-- The decimal digits of `n`, fuel-indexed so that it reduces in the
kernel; mirrors Python `str(n)` for `n : Nat`. -/
def natCharsAux : Nat → Nat → List Char
  | 0, _ => []
  | f + 1, n =>
    if n < 10 then [Nat.digitChar n]
    else natCharsAux f (n / 10) ++ [Nat.digitChar (n % 10)]

/-- Python `str(n)` for a natural number. -/
def natChars (n : Nat) : List Char := natCharsAux (n + 1) n

/-- Python `str(i)` for an integer. -/
def intChars (i : Int) : Str :=
  if i < 0 then '-' :: natChars i.natAbs else natChars i.toNat

/-- Does `sub` occur at the head of `s`? (`List.IsPrefix`, as a Bool). -/
def leadsWith : Str → Str → Bool
  | [], _ => true
  | _ :: _, [] => false
  | a :: as, b :: bs => a = b && leadsWith as bs

/-- Does `sub` occur anywhere in `s`? Mirrors Python `s.find(sub) >= 0`. -/
def hasSub (sub : Str) : Str → Bool
  | [] => leadsWith sub []
  | c :: r => leadsWith sub (c :: r) || hasSub sub r

/-- Python `s.split(sep)` for a non-empty separator `sep`, fuel-indexed
(the fuel `s.length + 1` always suffices). -/
def splitSubAux (sep : Str) : Nat → Str → Str → List Str
  | 0, s, acc => [acc.reverse ++ s]
  | f + 1, s, acc =>
    match s with
    | [] => [acc.reverse]
    | c :: rest =>
      if leadsWith sep s then acc.reverse :: splitSubAux sep f (s.drop sep.length) []
      else splitSubAux sep f rest (c :: acc)

/-- Python `s.split(sep)` (leftmost, non-overlapping occurrences). -/
def pySplit (s sep : Str) : List Str := splitSubAux sep (s.length + 1) s []

/-- `sep.join(l)` for Python lists of strings. -/
def joinWith (sep : Str) : List Str → Str
  | [] => []
  | [x] => x
  | x :: y :: r => x ++ sep ++ joinWith sep (y :: r)

/-- `'\n'.join(l)`. -/
def joinNl (l : List Str) : Str := joinWith ['\n'] l

/-- Map under `Option`, failing when any element fails; models a Python
list comprehension whose body may raise. -/
def optMapList (f : α → Option β) : List α → Option (List β)
  | [] => some []
  | a :: r =>
    match f a with
    | none => none
    | some b => (optMapList f r).map fun bs => b :: bs

/-- Elements of `l` at even positions: Python `l[::2]`. -/
def evens : List α → List α
  | [] => []
  | [a] => [a]
  | a :: _ :: r => a :: evens r

/-- Elements of `l` at odd positions: Python `l[1::2]`. -/
def odds : List α → List α
  | [] => []
  | [_] => []
  | _ :: b :: r => b :: odds r

/-- Insert into an ascending list. -/
def insertAsc (a : Int) : List Int → List Int
  | [] => [a]
  | b :: r => if a ≤ b then a :: b :: r else b :: insertAsc a r

/-- Ascending sort; models Python `list.sort()` on integer lists. -/
def sortAsc : List Int → List Int
  | [] => []
  | a :: r => insertAsc a (sortAsc r)

/-- Python `set(l)`, as the list of first occurrences; only membership and
the ascending order after `sort()` are ever relied upon. -/
def pySet (l : List Int) : List Int := l.dedup

/-- Python set difference `a - b` on de-duplicated lists. -/
def setDiff (a b : List Int) : List Int := a.filter fun x => !b.contains x

/-- Python set intersection `a & b`. -/
def setInter (a b : List Int) : List Int := a.filter fun x => b.contains x

/-- `Jot.gen_symbol`: the generation-indent glyph.  The Python function
falls off the end (returns `None`) for `gen ≤ -2`, hence the `Option`;
it wraps the glyph in a singleton list, indexed with `[0]` by callers. -/
def gen_symbol (gen : Int) : Option (List Str) :=
  if gen = 0 then some [[]]
  else if gen = 1 then some [pyLjust ['>'] 1 '>' ++ [' ']]
  else if 1 < gen then some [pyRjust ['>'] gen.toNat '-' ++ [' ']]
  else if gen = -1 then some [['?', ' ']]
  else none

/-- Python `range(0, stop, step)` over natural `stop`:
`None` models the `ValueError` raised when `step == 0`. -/
def pyRange0 (stop : Nat) (step : Int) : Option (List Nat) :=
  if step = 0 then none
  else if step < 0 then some []
  else some ((List.range ((stop + step.toNat - 1) / step.toNat)).map (· * step.toNat))

/-- One line of `Jot.smart_wrap`: re-wrap `line` at `width`, keeping its
leading indent and indenting continuation chunks two spaces further. -/
def smart_wrap_line (width : Int) (line : Str) : Option Str :=
  let indent := line.length - (pyLstrip line).length
  let n : Int := width - indent
  let core := line.drop indent
  (pyRange0 core.length n).map fun idxs =>
    joinNl (idxs.map fun i =>
      List.replicate (if i = 0 then indent else indent + 2) ' ' ++ (core.drop i).take n.toNat)

/-- `Jot.smart_wrap`: word-wrap full note text at `width`; `none` models
the `ValueError` from `range(0, len, 0)` when some line's indent equals
`width`. -/
def smart_wrap (text : Str) (width : Int) : Option Str :=
  (optMapList (smart_wrap_line width) (splitOnChar '\n' text)).map joinNl

/-- One row of the `Notes ⋈ Status` join, restricted to the fields the
rendering core reads: `row[0]` id, `row[2]` due, `row[3]` description,
`row[7]` alias, `row[8]` status id, `row[9]` status glyph.  `none` models
SQL NULL. -/
structure Row where
  id : Int
  due : Option Str
  desc : Str
  alias' : Option Str
  status_id : Fin 6
  sym : Option Str

/-- Python truthiness of an optional string (`None` and `''` are falsy). -/
def pyTruthy (o : Option Str) : Bool :=
  match o with
  | none => false
  | some s => !s.isEmpty

/-- First line of a description: Python `row[3].split('\n')[0]`. -/
def firstLine (s : Str) : Str := (splitOnChar '\n' s).headD []

/-- `chr_key` of `Jot.summary_formatted`. -/
def chr_key : List Char := ['|', '~', 'v', '&']

/-- `end_chr` of `Jot.summary_formatted`: index into `chr_key`. -/
def end_chr_idx (tooLong multiline : Bool) : Nat :=
  if tooLong && multiline then 3
  else if tooLong then 1
  else if multiline then 2
  else 0

/-- The `note_summary` string of `Jot.summary_formatted` (glyph plus first
description line, cut or padded to the snippet width, plus the marker). -/
def note_field (sw : Nat) (row : Row) (gen : Int) : Option Str :=
  (gen_symbol gen).map fun gen_parts =>
    let gen_str := gen_parts.headD []
    let multiline := row.desc.contains '\n'
    let note_summary := gen_str ++ firstLine row.desc
    let tooLong := decide (sw < note_summary.length)
    pyLjust (note_summary.take sw) sw ' ' ++ [chr_key.getD (end_chr_idx tooLong multiline) '|']

/-- The `plain_summary` string of `Jot.summary_formatted`: the summary
line before optional colorization. -/
def summary_plain (sw : Nat) (row : Row) (gen : Int) : Option Str :=
  (note_field sw row gen).map fun note_str =>
    let sts_str := pyCenter (row.sym.getD []) 3 '|'
    let due_str := pyCenter (row.due.getD []) 10 ' '
    let id_str :=
      if pyTruthy row.alias' then pyRjust ((row.alias'.getD []).take 5) 5 ' '
      else pyRjust (intChars row.id) 5 ' '
    '|' :: ' ' :: due_str ++ ' ' :: sts_str ++ id_str ++ ' ' :: note_str ++ [' ']

/-- `Jot.style_parser`: the ANSI escape sequence
`'\x1b[' + str(style) + ';38;5;' + str(color) + 'm'`. -/
def style_code (color style : Nat) : Str :=
  '\x1b' :: '[' :: natChars style ++ [';', '3', '8', ';', '5', ';'] ++ natChars color ++ ['m']

/-- Python slice `s[a:b]` for non-negative bounds (clamped, empty when
`b ≤ a`). -/
def pySlice (s : Str) (a b : Nat) : Str := (s.take b).drop a

/-- `Jot.colorize_summary`.  `col` is the `colorize` configuration flag,
`pal` the nine configured palette colors, `sw` the snippet width. -/
def colorize_summary (col : Bool) (pal : Fin 9 → Nat) (sw : Nat) (my_str : Str)
    (gen : Int) (status_id : Fin 6) (trim_key : Nat) : Str :=
  if col then
    let sty0 := style_code (pal 7) 0
    let styInd := style_code (if (status_id : Nat) = 0 then pal 0 else pal 6) 3
    let styNote := style_code (pal (status_id.castLE (by omega))) 0
    let styEnd := style_code (pal 0) (if trim_key = 0 then 0 else 5)
    let g := gen.natAbs
    let mydate := styNote ++ pySlice my_str 1 13
    let mystat := styNote ++ pySlice my_str 13 16
    let myind := styInd ++ pySlice my_str 16 22
    let mygen := styInd ++ pySlice my_str 22 (22 + g)
    let mynote := styNote ++ pySlice my_str (22 + g) (22 + sw)
    let myend := styEnd ++ pySlice my_str (22 + sw) (23 + sw) ++ sty0
    styEnd ++ pySlice my_str 0 1 ++ mydate ++ mystat ++ myind ++ mygen ++ mynote ++ myend
  else my_str

/-- Removes ANSI escape sequences: on `'\x1b'` drop characters up to and
including the next `'m'`.  The `Bool` says whether we are inside an
escape sequence. -/
def stripA : Bool → Str → Str
  | _, [] => []
  | false, c :: rest => if c = '\x1b' then stripA true rest else c :: stripA false rest
  | true, c :: rest => if c = 'm' then stripA false rest else stripA true rest

/-- Remove all ANSI escape sequences from a string. -/
def stripAnsi (s : Str) : Str := stripA false s

/-- Python slice `s[i:]` with a possibly negative index. -/
def pyDropIdx (s : Str) (i : Int) : Str :=
  s.drop (if i < 0 then ((s.length : Int) + i).toNat else i.toNat)

/-- Python slice `s[:j]` with a possibly negative index. -/
def pyTakeIdx (s : Str) (j : Int) : Str :=
  s.take (if j < 0 then ((s.length : Int) + j).toNat else j.toNat)

/-- Integer `math.ceil(w / 2)`. -/
def ceilHalf (w : Int) : Int := (w + 1).fdiv 2

/-- The `find` branch of `Jot.print_formatted`, for one line `line` of the
lowercased description that contains the lowercased term: the excerpt
text printed for that line (before padding into the bordered row). -/
def excerpt_line (sw : Nat) (find : Str) (line : Str) : Str :=
  let wid : Int := (sw : Int) - find.length
  let widh1 := ceilHalf wid
  let widh2 := wid.fdiv 2
  let context := pySplit ('~' :: line ++ ['~']) (pyLower find)
  let c0 := context.headD []
  let c1 := (context.drop 1).headD []
  if (line.length : Int) > wid then
    let cw0 : Int := c0.length
    let cw1 : Int := c1.length
    if cw0 + cw1 > wid then
      if cw0 > widh1 ∧ cw1 > widh2 then
        pyDropIdx c0 (-widh1) ++ pyUpper find ++ pyTakeIdx c1 widh2
      else if cw0 > widh1 then
        pyDropIdx c0 (-(wid - cw1)) ++ pyUpper find ++ c1
      else
        c0 ++ pyUpper find ++ pyTakeIdx c1 (wid - cw0)
    else line
  else c0 ++ pyUpper find ++ c1

/-- The `snip` selection plus excerpt computation of the `find` branch of
`Jot.print_formatted`: the excerpts for all lines of `desc.lower()` that
contain `find.lower()`. -/
def excerpt_lines (sw : Nat) (find : Str) (desc : Str) : List Str :=
  ((splitOnChar '\n' (pyLower desc)).filter fun i => hasSub (pyLower find) i).map
    (excerpt_line sw find)

/-- The nested list `[parent, gen, [children...]]` built by
`Jot.find_children`. -/
inductive NestT where
  | node (id : Int) (gen : Int) (kids : List NestT)

/-- `SELECT child FROM Nest WHERE parent = ?`, in stored order. -/
def childrenOf (E : List (Int × Int)) (p : Int) : List Int :=
  (E.filter fun e => e.1 == p).map (·.2)

/-- `Jot.find_children`, fuel-indexed.  The Python function recurses into
every child with no visited check; `none` means the recursion did not
complete within `fuel` nested calls.  If the result is `none` for every
fuel, the Python call never returns (unbounded recursion). -/
def find_children : Nat → List (Int × Int) → Int → Int → Option NestT
  | 0, _, _, _ => none
  | f + 1, E, parent, gen =>
    (optMapList (fun c => find_children f E c (gen + 1)) (childrenOf E parent)).map
      fun kids => NestT.node parent gen kids

/-- `parent_children` of `Jot.family_tree`: nodes that are both a parent
and a child (`children - (children - parents)`). -/
def parent_children_of (E : List (Int × Int)) : List Int :=
  let parents := pySet (E.map (·.1))
  let children := pySet (E.map (·.2))
  setDiff children (setDiff children parents)

/-- `first_parents` of `Jot.family_tree`: the true roots, sorted. -/
def first_parents_of (E : List (Int × Int)) : List Int :=
  sortAsc (setDiff (pySet (E.map (·.1))) (parent_children_of E))

/-- `Jot.family_tree` (the `tree` component), fuel-indexed through
`find_children`. -/
def family_tree (fuel : Nat) (E : List (Int × Int)) : Option (List NestT) :=
  optMapList (fun p => find_children fuel E p 1) (first_parents_of E)

/-- `Jot.flatten2list` on a nest: the interleaved `[id, gen, id, gen, …]`
list.  Fuel-indexed so that it reduces in the kernel; any fuel at least
the nest's depth (in particular the fuel that built it) is enough. -/
def flatten2list : Nat → NestT → List Int
  | 0, _ => []
  | f + 1, .node i g kids => i :: g :: (kids.map (flatten2list f)).flatten

/-- The intermediate values of `Jot.nest_notes`: the tree-derived ids and
generations (already filtered to `my_ids`), the sorted `circular` ids,
and the sorted `free` ids. -/
structure NNParts where
  ids0 : List Int
  gens0 : List Int
  circular : List Int
  free : List Int
  deriving DecidableEq

/-- `Jot.nest_notes`, up to its three segments.  Mirrors the source:
flatten the tree, pair ids with generations (`[::2]`/`[1::2]`), keep
pairs whose id is wanted, re-flatten and split again, then compute
`circular = parent_children - set(ids) & set(my_ids)` (which parses as
`(parent_children - set(ids)) & set(my_ids)`) and
`free = set(my_ids) - set(ids)`. -/
def nest_notes_core (fuel : Nat) (E : List (Int × Int)) (my_ids : List Int) :
    Option NNParts :=
  (family_tree fuel E).map fun tree =>
    let id_gen := (tree.map (flatten2list fuel)).flatten
    let pairs := ((evens id_gen).zip (odds id_gen)).filter fun ig => my_ids.contains ig.1
    let id_gen2 := pairs.flatMap fun ig => [ig.1, ig.2]
    let ids := evens id_gen2
    let gens := odds id_gen2
    let circular := sortAsc (setInter (setDiff (parent_children_of E) (pySet ids)) (pySet my_ids))
    let free := sortAsc (setDiff (pySet my_ids) (pySet (ids ++ circular)))
    ⟨ids, gens, circular, free⟩

/-- `Jot.nest_notes`: the final `(ids, gens)` pair. -/
def nest_notes (fuel : Nat) (E : List (Int × Int)) (my_ids : List Int) :
    Option (List Int × List Int) :=
  (nest_notes_core fuel E my_ids).map fun p =>
    (p.ids0 ++ p.circular ++ p.free,
     p.gens0 ++ List.replicate p.circular.length (-1) ++ List.replicate p.free.length 0)

/-- The persistent store as far as `Jot.remove_note` touches it: the
`Notes` row ids and the `Nest` edge rows `(parent, child)`. -/
structure DB where
  notes : List Int
  nest : List (Int × Int)

/-- `Jot.remove_note`: delete the `Notes` row, read the removed note's
parents and children, delete every incident `Nest` edge, then insert an
edge from each former parent to each former child (`adoption`). -/
def remove_note (db : DB) (n : Int) : DB :=
  let notes' := db.notes.filter fun i => !(i == n)
  let parents := pySet ((db.nest.filter fun e => e.2 == n).map (·.1))
  let orphans := pySet ((db.nest.filter fun e => e.1 == n).map (·.2))
  let nest' := db.nest.filter fun e => !(e.1 == n) && !(e.2 == n)
  let adopted := parents.flatMap fun p => orphans.map fun c => (p, c)
  ⟨notes', nest' ++ adopted⟩

/-! ## Helper lemmas -/

theorem mem_insertAsc {a x : Int} {l : List Int} : a ∈ insertAsc x l ↔ a = x ∨ a ∈ l := by
  induction l with
  | nil => simp [insertAsc]
  | cons b r ih =>
    simp only [insertAsc]
    split
    · simp
    · simp only [List.mem_cons, ih]
      tauto

theorem mem_sortAsc {a : Int} {l : List Int} : a ∈ sortAsc l ↔ a ∈ l := by
  induction l with
  | nil => simp [sortAsc]
  | cons b r ih => simp [sortAsc, mem_insertAsc, ih]

theorem pyLjust_length (s : Str) (w : Nat) (fill : Char) :
    (pyLjust s w fill).length = max s.length w := by
  simp [pyLjust]
  omega

theorem pyRjust_length (s : Str) (w : Nat) (fill : Char) :
    (pyRjust s w fill).length = max s.length w := by
  simp [pyRjust]
  omega

theorem pyCenter_length (s : Str) (w : Nat) (fill : Char) :
    (pyCenter s w fill).length = max s.length w := by
  simp only [pyCenter, List.length_append, List.length_replicate]
  have h1 : (w - s.length) &&& w &&& 1 ≤ 1 := Nat.and_le_right
  have h2 : (w - s.length) / 2 ≤ w - s.length := Nat.div_le_self _ _
  rcases Nat.eq_zero_or_pos (w - s.length) with h | h
  · simp only [h, Nat.zero_and, Nat.zero_div, Nat.zero_add]
    omega
  · have h3 : (w - s.length) / 2 + ((w - s.length) &&& w &&& 1) ≤ w - s.length := by
      have := Nat.div_lt_self h (by norm_num : 1 < 2)
      omega
    omega

theorem gen_symbol_total {gen : Int} (h : -1 ≤ gen) : ∃ gp, gen_symbol gen = some gp := by
  unfold gen_symbol
  split
  · exact ⟨_, rfl⟩
  · split
    · exact ⟨_, rfl⟩
    · split
      · exact ⟨_, rfl⟩
      · split
        · exact ⟨_, rfl⟩
        · omega

theorem note_field_length {sw : Nat} {row : Row} {gen : Int} {ns : Str}
    (h : note_field sw row gen = some ns) : ns.length = sw + 1 := by
  unfold note_field at h
  rcases hg : gen_symbol gen with _ | gp
  · rw [hg] at h
    simp at h
  · rw [hg] at h
    simp only [Option.map_some', Option.some.injEq] at h
    subst h
    simp only [List.length_append, pyLjust_length, List.length_take, List.length_cons,
      List.length_nil]
    omega

/-! ## C9: the generation glyph table -/

/-- C9: `gen_symbol` yields the empty glyph for generation 0, `"> "` for
generation 1, `generation − 1` dashes then `"> "` for every generation
above 1 (so `"--> "` at generation 3), and `"? "` for generation −1. -/
theorem c9_gen_symbol_glyphs :
    gen_symbol 0 = some [[]] ∧
    gen_symbol 1 = some [['>', ' ']] ∧
    gen_symbol (-1) = some [['?', ' ']] ∧
    ∀ g : Int, 1 < g →
      gen_symbol g = some [List.replicate (g.toNat - 1) '-' ++ ['>', ' ']] := by
  refine ⟨by decide, by decide, by decide, fun g hg => ?_⟩
  unfold gen_symbol
  rw [if_neg (by omega), if_neg (by omega), if_pos hg]
  simp only [pyRjust, List.length_cons, List.length_nil, List.append_assoc,
    List.cons_append, List.nil_append]

/-- C9 witness: generation 3 renders as `"--> "`. -/
theorem c9_witness : gen_symbol 3 = some [['-', '-', '>', ' ']] := by
  have h := c9_gen_symbol_glyphs.2.2.2 3 (by decide)
  simpa using h

/-! ## C6: `smart_wrap` on a line whose indent equals the width -/

/-- C6: contrary to the claim, clamping is absent: on the line
`"    x"` (indent 4) at width 4 the chunk step `width − indent` is zero
and `range(0, 1, 0)` raises `ValueError` — modelled as `none`.  The
recorded code bug: word-wrap fails when a line's leading indent equals
the target width. -/
theorem c6_smart_wrap_zero_step :
    smart_wrap [' ', ' ', ' ', ' ', 'x'] 4 = none := by decide

/-! ## C7: the unstyled summary line has a fixed total length -/

/-- C7: for any description whatsoever (empty, exactly at the snippet
width, or multiline and far over width) the plain summary line has length
exactly `24 + sw`: the glyph-plus-first-line text is cut or padded to the
`sw`-wide field before the marker is appended.  The hypotheses are the
data-model invariants on the non-description fields: the generation is at
least −1 (below that `gen_symbol` returns `None`), the due string fits
its 10-wide field, the status glyph its 3-wide field, and — when no alias
is set — the numeric id its 5-wide field. -/
theorem c7_summary_fixed_length (sw : Nat) (row : Row) (gen : Int)
    (hgen : -1 ≤ gen)
    (hdue : (row.due.getD []).length ≤ 10)
    (hsym : (row.sym.getD []).length ≤ 3)
    (hid : pyTruthy row.alias' = false → (intChars row.id).length ≤ 5) :
    ∃ s, summary_plain sw row gen = some s ∧ s.length = 24 + sw := by
  obtain ⟨gp, hgp⟩ := gen_symbol_total hgen
  rcases hnf : note_field sw row gen with _ | ns
  · exfalso
    unfold note_field at hnf
    rw [hgp] at hnf
    simp at hnf
  · have hlen := note_field_length hnf
    unfold summary_plain
    rw [hnf]
    simp only [Option.map_some', Option.some.injEq]
    refine ⟨_, rfl, ?_⟩
    cases hA : pyTruthy row.alias' with
    | false =>
      have h5 := hid hA
      simp only [hA, Bool.false_eq_true, if_false, List.length_cons, List.length_append,
        pyCenter_length, pyRjust_length, List.length_nil]
      omega
    | true =>
      simp only [hA, if_true, List.length_cons, List.length_append,
        pyCenter_length, pyRjust_length, List.length_take, List.length_nil]
      omega

/-- C7 witness: a concrete row with a far-over-width multiline
description, rendered at generation 3 with snippet width 5. -/
theorem c7_witness :
    ∃ s, summary_plain 5
        ⟨4, some (("2024-01-02").toList), (("a long multiline description\nsecond").toList),
          none, ⟨2, by omega⟩, some ['+']⟩ 3 = some s ∧ s.length = 24 + 5 :=
  c7_summary_fixed_length 5 _ 3 (by decide) (by decide) (by decide) (fun _ => by decide)

theorem chr_key_getD (t m : Bool) :
    chr_key.getD (end_chr_idx t m) '|' =
      (if t && m then '&' else if t then '~' else if m then 'v' else '|') := by
  cases t <;> cases m <;> rfl

/-! ## C8: the four-way trailing-marker rule -/

/-- C8: the marker appended after the fixed-width note field is `'&'`
when the glyph-plus-first-line is too long for the field and the
description is multiline, `'~'` when only too long, `'v'` when only
multiline, `'|'` when neither. -/
theorem c8_marker_rule (sw : Nat) (row : Row) (gen : Int) (gp : List Str)
    (hg : gen_symbol gen = some gp) :
    ∃ ns, note_field sw row gen = some ns ∧
      ns.getLast? = some
        (if sw < (gp.headD [] ++ firstLine row.desc).length ∧ '\n' ∈ row.desc then '&'
         else if sw < (gp.headD [] ++ firstLine row.desc).length then '~'
         else if '\n' ∈ row.desc then 'v'
         else '|') := by
  unfold note_field
  rw [hg]
  simp only [Option.map_some', Option.some.injEq]
  refine ⟨_, rfl, ?_⟩
  rw [List.getLast?_concat, chr_key_getD]
  simp only [Bool.and_eq_true, decide_eq_true_eq, List.elem_iff]

/-- C8 witness: description `"abc\ndef"` at field width 3 is multiline
but not too long, so the marker is `'v'`. -/
theorem c8_witness :
    (¬ 3 < (([] : Str) ++ firstLine (("abc\ndef").toList)).length) ∧
      '\n' ∈ ("abc\ndef").toList ∧
      ∃ ns, note_field 3 ⟨1, none, ("abc\ndef").toList, none, 0, none⟩ 0 = some ns ∧
        ns.getLast? = some 'v' := by
  obtain ⟨ns, hns, hlast⟩ :=
    c8_marker_rule 3 ⟨1, none, ("abc\ndef").toList, none, 0, none⟩ 0 [[]] (by decide)
  exact ⟨by decide, by decide, ns, hns, hlast.trans (by decide)⟩

/-! ## C10: `remove_note` -/

theorem mem_parents_iff (nest : List (Int × Int)) (n a : Int) :
    a ∈ pySet ((nest.filter fun e => e.2 == n).map (·.1)) ↔ (a, n) ∈ nest := by
  simp only [pySet, List.mem_dedup, List.mem_map, List.mem_filter, beq_iff_eq]
  constructor
  · rintro ⟨⟨p, c⟩, ⟨hm, hc⟩, rfl⟩
    cases hc
    exact hm
  · intro h'
    exact ⟨(a, n), ⟨h', rfl⟩, rfl⟩

theorem mem_orphans_iff (nest : List (Int × Int)) (n b : Int) :
    b ∈ pySet ((nest.filter fun e => e.1 == n).map (·.2)) ↔ (n, b) ∈ nest := by
  simp only [pySet, List.mem_dedup, List.mem_map, List.mem_filter, beq_iff_eq]
  constructor
  · rintro ⟨⟨p, c⟩, ⟨hm, hc⟩, rfl⟩
    cases hc
    exact hm
  · intro h'
    exact ⟨(n, b), ⟨h', rfl⟩, rfl⟩

theorem remove_note_nest_mem (db : DB) (n : Int) (e : Int × Int) :
    e ∈ (remove_note db n).nest ↔
      (e ∈ db.nest ∧ e.1 ≠ n ∧ e.2 ≠ n) ∨ ((e.1, n) ∈ db.nest ∧ (n, e.2) ∈ db.nest) := by
  obtain ⟨a, b⟩ := e
  simp only [remove_note, List.mem_append, List.mem_filter, List.mem_flatMap, List.mem_map,
    Bool.and_eq_true, Bool.not_eq_true', beq_eq_false_iff_ne]
  constructor
  · rintro (⟨hm, h1, h2⟩ | ⟨p, hp, c, hc, hpc⟩)
    · exact Or.inl ⟨hm, h1, h2⟩
    · rcases Prod.mk.injEq .. ▸ hpc with ⟨rfl, rfl⟩
      exact Or.inr ⟨(mem_parents_iff db.nest n _).mp hp, (mem_orphans_iff db.nest n _).mp hc⟩
  · rintro (⟨hm, h1, h2⟩ | ⟨hp, hc⟩)
    · exact Or.inl ⟨hm, h1, h2⟩
    · refine Or.inr ⟨a, (mem_parents_iff db.nest n a).mpr hp, b,
        (mem_orphans_iff db.nest n b).mpr hc, rfl⟩

/-- C10 counterexample: the claim fails when the removed note has a
self-loop.  With `Nest = [(1,1)]`, `remove_note 1` reads `P = C = {1}`,
deletes the edge, then the adoption loop re-inserts `(1,1)` — an edge
with the removed note as parent and child remains. -/
theorem c10_counterexample :
    (1, 1) ∈ (remove_note ⟨[1], [(1, 1)]⟩ 1).nest := by decide

/-- C10 amended: provided the removed note has no self-loop edge
`(n, n)`, `remove_note n` deletes the Notes row for `n`, leaves no Nest
edge with `n` as parent or child, inserts `(p, c)` for every former
parent `p` and former child `c` of `n`, and keeps exactly the edges not
incident to `n` besides those adopted pairs. -/
theorem c10_remove_note (db : DB) (n : Int) (h : (n, n) ∉ db.nest) :
    n ∉ (remove_note db n).notes ∧
    (∀ e ∈ (remove_note db n).nest, e.1 ≠ n ∧ e.2 ≠ n) ∧
    (∀ p c, (p, n) ∈ db.nest → (n, c) ∈ db.nest → (p, c) ∈ (remove_note db n).nest) ∧
    (∀ e : Int × Int, e ∈ (remove_note db n).nest ↔
      (e ∈ db.nest ∧ e.1 ≠ n ∧ e.2 ≠ n) ∨ ((e.1, n) ∈ db.nest ∧ (n, e.2) ∈ db.nest)) := by
  refine ⟨?_, ?_, ?_, remove_note_nest_mem db n⟩
  · simp [remove_note]
  · intro e he
    rcases (remove_note_nest_mem db n e).mp he with ⟨_, h1, h2⟩ | ⟨hp, hc⟩
    · exact ⟨h1, h2⟩
    · constructor
      · intro h1
        exact h (h1 ▸ hp)
      · intro h2
        exact h (h2 ▸ hc)
  · intro p c hp hc
    exact (remove_note_nest_mem db n (p, c)).mpr (Or.inr ⟨hp, hc⟩)

/-- C10 witness: removing note 2 from `Nest = [(1,2),(2,3)]` leaves its
row deleted and makes parent 1 adopt child 3. -/
theorem c10_witness :
    2 ∉ (remove_note ⟨[1, 2, 3], [(1, 2), (2, 3)]⟩ 2).notes ∧
      (1, 3) ∈ (remove_note ⟨[1, 2, 3], [(1, 2), (2, 3)]⟩ 2).nest := by
  have h := c10_remove_note ⟨[1, 2, 3], [(1, 2), (2, 3)]⟩ 2 (by decide)
  exact ⟨h.1, h.2.2.1 1 3 (by decide) (by decide)⟩

/-! ## C1: `find_children` on a cycle reachable from a true root -/

theorem c1_aux : ∀ f : Nat, ∀ g : Int,
    find_children f [(1, 2), (2, 3), (3, 2)] 2 g = none ∧
    find_children f [(1, 2), (2, 3), (3, 2)] 3 g = none := by
  intro f
  induction f with
  | zero => intro g; exact ⟨rfl, rfl⟩
  | succ f ih =>
    intro g
    constructor
    · have hc : childrenOf [(1, 2), (2, 3), (3, 2)] 2 = [3] := rfl
      simp only [find_children, hc, optMapList, (ih (g + 1)).2, Option.map_none']
    · have hc : childrenOf [(1, 2), (2, 3), (3, 2)] 3 = [2] := rfl
      simp only [find_children, hc, optMapList, (ih (g + 1)).1, Option.map_none']

/-- C1: contrary to the claim, `find_children` carries no visited set and
follows every edge unconditionally, so on the edge set
`{(1,2), (2,3), (3,2)}` — whose cycle 2 ↔ 3 is reachable from the true
root 1 — the expansion from the root completes within no fuel bound at
all: the Python recursion never returns (it dies with `RecursionError`).
The recorded code bug: cyclic back-edges are not dropped and termination
fails. -/
theorem c1_unbounded_recursion : ∀ fuel : Nat,
    find_children fuel [(1, 2), (2, 3), (3, 2)] 1 1 = none ∧
    family_tree fuel [(1, 2), (2, 3), (3, 2)] = none := by
  intro fuel
  have hfc : find_children fuel [(1, 2), (2, 3), (3, 2)] 1 1 = none := by
    cases fuel with
    | zero => rfl
    | succ f =>
      have hc : childrenOf [(1, 2), (2, 3), (3, 2)] 1 = [2] := rfl
      simp only [find_children, hc, optMapList, (c1_aux f (1 + 1)).1, Option.map_none']
  refine ⟨hfc, ?_⟩
  have hfp : first_parents_of [(1, 2), (2, 3), (3, 2)] = [1] := by decide
  simp only [family_tree, hfp, optMapList, hfc]

/-! ## Lemmas about flattening and pairing -/

theorem twoStepInd {P : List α → Prop} (h0 : P []) (h1 : ∀ a, P [a])
    (h2 : ∀ a b l, P l → P (a :: b :: l)) : ∀ l, P l
  | [] => h0
  | [a] => h1 a
  | a :: b :: l => h2 a b l (twoStepInd h0 h1 h2 l)

theorem evens_flat_pairs (ps : List (Int × Int)) :
    evens (ps.flatMap fun ig => [ig.1, ig.2]) = ps.map (·.1) := by
  induction ps with
  | nil => rfl
  | cons p r ih => simpa [evens] using ih

theorem odds_flat_pairs (ps : List (Int × Int)) :
    odds (ps.flatMap fun ig => [ig.1, ig.2]) = ps.map (·.2) := by
  induction ps with
  | nil => rfl
  | cons p r ih => simpa [odds] using ih

theorem flatten_len_even (L : List (List Int)) (h : ∀ l ∈ L, l.length % 2 = 0) :
    L.flatten.length % 2 = 0 := by
  induction L with
  | nil => rfl
  | cons x xs ih =>
    have hx := h x (List.mem_cons_self x xs)
    have hxs := ih fun l hl => h l (List.mem_cons_of_mem x hl)
    simp only [List.flatten_cons, List.length_append]
    omega

theorem flatten2list_even : ∀ (f : Nat) (t : NestT), (flatten2list f t).length % 2 = 0 := by
  intro f
  induction f with
  | zero => intro t; rfl
  | succ f ih =>
    intro t
    obtain ⟨i, g, kids⟩ := t
    simp only [flatten2list, List.length_cons]
    have h := flatten_len_even (kids.map (flatten2list f)) ?_
    · omega
    · intro l hl
      rcases List.mem_map.mp hl with ⟨t', _, rfl⟩
      exact ih t'

theorem evens_append (b : List α) :
    ∀ a : List α, a.length % 2 = 0 → evens (a ++ b) = evens a ++ evens b := by
  refine twoStepInd (by simp [evens]) (fun a h => by simp at h) ?_
  intro x y l ih h
  have hl : l.length % 2 = 0 := by
    simp only [List.length_cons] at h
    omega
  simp [evens, ih hl]

theorem odds_append (b : List α) :
    ∀ a : List α, a.length % 2 = 0 → odds (a ++ b) = odds a ++ odds b := by
  refine twoStepInd (by simp [odds]) (fun a h => by simp at h) ?_
  intro x y l ih h
  have hl : l.length % 2 = 0 := by
    simp only [List.length_cons] at h
    omega
  simp [odds, ih hl]

theorem evens_odds_length :
    ∀ a : List α, a.length % 2 = 0 → (evens a).length = (odds a).length := by
  refine twoStepInd (by simp [evens, odds]) (fun a h => by simp at h) ?_
  intro x y l ih h
  have hl : l.length % 2 = 0 := by
    simp only [List.length_cons] at h
    omega
  simp [evens, odds, ih hl]

theorem contains_eq_false_of_not_mem {l : List Int} {x : Int} (h : x ∉ l) :
    l.contains x = false := by
  cases hb : l.contains x with
  | false => rfl
  | true => exact absurd (List.elem_iff.mp hb) h

theorem optMapList_mem {g : α → Option β} :
    ∀ {l : List α} {r : List β}, optMapList g l = some r →
      ∀ a ∈ l, ∃ b ∈ r, g a = some b := by
  intro l
  induction l with
  | nil => simp
  | cons x xs ih =>
    intro r h a ha
    unfold optMapList at h
    cases hx : g x with
    | none => rw [hx] at h; simp at h
    | some b =>
      rw [hx] at h
      cases hr : optMapList g xs with
      | none => rw [hr] at h; simp at h
      | some bs =>
        rw [hr] at h
        simp only [Option.map_some', Option.some.injEq] at h
        subst h
        rcases List.mem_cons.mp ha with rfl | ha'
        · exact ⟨b, List.mem_cons_self b bs, hx⟩
        · rcases ih hr a ha' with ⟨b', hb', hgb'⟩
          exact ⟨b', List.mem_cons_of_mem b hb', hgb'⟩

/-! ## C2: the display set covers exactly the wanted ids -/

/-- C2: whenever the resolution terminates (`nest_notes` succeeds at the
given fuel), the multiset of identifiers it emits — ignoring generations
and duplicates — is exactly the wanted set `W`: every requested id
appears at least once (tree, circular, or free segment) and no id
outside `W` ever appears. -/
theorem c2_display_set (fuel : Nat) (E : List (Int × Int)) (W : List Int)
    (ids gens : List Int) (h : nest_notes fuel E W = some (ids, gens)) :
    ∀ x, x ∈ ids ↔ x ∈ W := by
  unfold nest_notes at h
  cases hc : nest_notes_core fuel E W with
  | none => rw [hc] at h; simp at h
  | some parts =>
    rw [hc] at h
    simp only [Option.map_some', Option.some.injEq, Prod.mk.injEq] at h
    obtain ⟨hids, -⟩ := h
    subst hids
    have hsub0 : ∀ x ∈ parts.ids0, x ∈ W := by
      unfold nest_notes_core at hc
      cases ht : family_tree fuel E with
      | none => rw [ht] at hc; simp at hc
      | some tree =>
        rw [ht] at hc
        simp only [Option.map_some', Option.some.injEq] at hc
        subst hc
        intro x hx
        simp only [evens_flat_pairs] at hx
        rcases List.mem_map.mp hx with ⟨ig, hig, rfl⟩
        exact List.elem_iff.mp (List.mem_filter.mp hig).2
    have hsubC : ∀ x ∈ parts.circular, x ∈ W := by
      unfold nest_notes_core at hc
      cases ht : family_tree fuel E with
      | none => rw [ht] at hc; simp at hc
      | some tree =>
        rw [ht] at hc
        simp only [Option.map_some', Option.some.injEq] at hc
        subst hc
        intro x hx
        rw [mem_sortAsc] at hx
        simp only [setInter] at hx
        have hxm := List.elem_iff.mp (List.mem_filter.mp hx).2
        simpa [pySet] using hxm
    have hsubF : ∀ x ∈ parts.free, x ∈ W := by
      unfold nest_notes_core at hc
      cases ht : family_tree fuel E with
      | none => rw [ht] at hc; simp at hc
      | some tree =>
        rw [ht] at hc
        simp only [Option.map_some', Option.some.injEq] at hc
        subst hc
        intro x hx
        rw [mem_sortAsc] at hx
        simp only [setDiff] at hx
        have := (List.mem_filter.mp hx).1
        simpa [pySet] using this
    have hcov : ∀ x ∈ W, x ∈ parts.ids0 ++ parts.circular ++ parts.free := by
      intro x hxW
      by_cases hp : x ∈ parts.ids0 ++ parts.circular
      · exact List.mem_append.mpr (Or.inl hp)
      · refine List.mem_append.mpr (Or.inr ?_)
        unfold nest_notes_core at hc
        cases ht : family_tree fuel E with
        | none => rw [ht] at hc; simp at hc
        | some tree =>
          rw [ht] at hc
          simp only [Option.map_some', Option.some.injEq] at hc
          subst hc
          rw [mem_sortAsc]
          simp only [setDiff]
          refine List.mem_filter.mpr ⟨by simpa [pySet] using hxW, ?_⟩
          simp only [Bool.not_eq_true']
          apply contains_eq_false_of_not_mem
          intro hmm
          simp only [pySet, List.mem_dedup] at hmm
          exact hp hmm
    intro x
    constructor
    · intro hx
      rcases List.mem_append.mp hx with hx1 | hxF
      · rcases List.mem_append.mp hx1 with hx0 | hxC
        · exact hsub0 x hx0
        · exact hsubC x hxC
      · exact hsubF x hxF
    · exact hcov x

/-- C2 witness: edges `[(1,2)]`, wanted `[1,2]`: resolution succeeds and
the emitted ids are exactly the wanted ids. -/
theorem c2_witness :
    nest_notes 3 [(1, 2)] [1, 2] = some ([1, 2], [1, 2]) ∧
      ∀ x : Int, x ∈ ([1, 2] : List Int) ↔ x ∈ ([1, 2] : List Int) :=
  ⟨by decide, c2_display_set 3 [(1, 2)] [1, 2] [1, 2] [1, 2] (by decide)⟩

/-! ## C3: the free segment -/

theorem mem_setDiff {a b : List Int} {x : Int} : x ∈ setDiff a b ↔ x ∈ a ∧ x ∉ b := by
  simp [setDiff, List.mem_filter]

theorem mem_setInter {a b : List Int} {x : Int} : x ∈ setInter a b ↔ x ∈ a ∧ x ∈ b := by
  simp [setInter, List.mem_filter]

theorem mem_parent_children (E : List (Int × Int)) (x : Int) :
    x ∈ parent_children_of E ↔ (x ∈ E.map (·.2) ∧ x ∈ E.map (·.1)) := by
  unfold parent_children_of
  rw [mem_setDiff, mem_setDiff]
  simp only [pySet, List.mem_dedup]
  tauto

theorem mem_first_parents (E : List (Int × Int)) (x : Int) :
    x ∈ first_parents_of E ↔ (x ∈ E.map (·.1) ∧ x ∉ parent_children_of E) := by
  unfold first_parents_of
  rw [mem_sortAsc, mem_setDiff]
  simp only [pySet, List.mem_dedup]

theorem find_children_shape {fuel : Nat} {E : List (Int × Int)} {p g : Int} {t : NestT}
    (h : find_children fuel E p g = some t) :
    ∃ f kids, fuel = f + 1 ∧ t = NestT.node p g kids := by
  cases fuel with
  | zero => simp [find_children] at h
  | succ f =>
    simp only [find_children] at h
    cases ho : optMapList (fun c => find_children f E c (g + 1)) (childrenOf E p) with
    | none => rw [ho] at h; simp at h
    | some kids =>
      rw [ho] at h
      simp only [Option.map_some', Option.some.injEq] at h
      exact ⟨f, kids, rfl, h.symm⟩

theorem nest_notes_core_some {fuel : Nat} {E : List (Int × Int)} {W : List Int}
    {parts : NNParts} (h : nest_notes_core fuel E W = some parts) :
    ∃ tree, family_tree fuel E = some tree ∧
      parts.ids0 =
        evens (((((tree.map (flatten2list fuel)).flatten |> evens).zip
          ((tree.map (flatten2list fuel)).flatten |> odds)).filter
            fun ig => W.contains ig.1).flatMap fun ig => [ig.1, ig.2]) ∧
      parts.circular =
        sortAsc (setInter (setDiff (parent_children_of E) (pySet parts.ids0)) (pySet W)) ∧
      parts.free = sortAsc (setDiff (pySet W) (pySet (parts.ids0 ++ parts.circular))) := by
  unfold nest_notes_core at h
  cases ht : family_tree fuel E with
  | none => rw [ht] at h; simp at h
  | some tree =>
    rw [ht] at h
    simp only [Option.map_some', Option.some.injEq] at h
    subst h
    exact ⟨tree, rfl, rfl, rfl, rfl⟩

/-- C3 counterexample: edges `[(1,2),(2,1),(1,3)]`, wanted `[1,2,3]`.
There is no true root (1 and 2 form a cycle and 1 is also a child), so
the tree is empty, `circular = [1,2]`, and `free = [3]` — yet 3 appears
as the child of edge `(1,3)`, contradicting the claim that free ids have
no hierarchy relation at all. -/
theorem c3_counterexample :
    ((nest_notes_core 5 [(1, 2), (2, 1), (1, 3)] [1, 2, 3]).map NNParts.free) = some [3] ∧
      (1, 3) ∈ [(1, 2), (2, 1), (1, 3)] := ⟨by decide, by decide⟩

/-- C3 amended: every identifier in the free segment appears in no edge
as a *parent*; it may still appear as a child when it is not reachable
from any true root (as in the counterexample). -/
theorem c3_free_never_parent (fuel : Nat) (E : List (Int × Int)) (W : List Int)
    (parts : NNParts) (h : nest_notes_core fuel E W = some parts) :
    ∀ x ∈ parts.free, ∀ e ∈ E, e.1 ≠ x := by
  intro x hx e he heq
  obtain ⟨tree, ht, hi0, hci, hfr⟩ := nest_notes_core_some h
  rw [hfr, mem_sortAsc, mem_setDiff] at hx
  obtain ⟨hxW', hxn⟩ := hx
  have hxW : x ∈ W := by simpa [pySet, List.mem_dedup] using hxW'
  have hni : x ∉ parts.ids0 := fun hm =>
    hxn (by simp only [pySet, List.mem_dedup, List.mem_append]; exact Or.inl hm)
  have hnc : x ∉ parts.circular := fun hm =>
    hxn (by simp only [pySet, List.mem_dedup, List.mem_append]; exact Or.inr hm)
  have hxp : x ∈ E.map (·.1) := List.mem_map.mpr ⟨e, he, heq⟩
  by_cases hxc : x ∈ E.map (·.2)
  · exact hnc (by
      rw [hci, mem_sortAsc, mem_setInter, mem_setDiff]
      exact ⟨⟨(mem_parent_children E x).mpr ⟨hxc, hxp⟩,
        fun hm => hni (by simpa [pySet, List.mem_dedup] using hm)⟩,
        by simpa [pySet, List.mem_dedup] using hxW⟩)
  · have hfp : x ∈ first_parents_of E :=
      (mem_first_parents E x).mpr ⟨hxp, fun hpc => hxc ((mem_parent_children E x).mp hpc).1⟩
    unfold family_tree at ht
    obtain ⟨t, htm, hft⟩ := optMapList_mem ht x hfp
    obtain ⟨f, kids, rfl, rfl⟩ := find_children_shape hft
    obtain ⟨T1, T2, rfl⟩ := List.append_of_mem htm
    have hA : ((T1.map (flatten2list (f + 1))).flatten).length % 2 = 0 := by
      refine flatten_len_even _ ?_
      intro l hl
      rcases List.mem_map.mp hl with ⟨t', _, rfl⟩
      exact flatten2list_even _ t'
    have hidg : ((T1 ++ NestT.node x 1 kids :: T2).map (flatten2list (f + 1))).flatten
        = (T1.map (flatten2list (f + 1))).flatten ++ x :: 1 ::
          ((kids.map (flatten2list f)).flatten ++ (T2.map (flatten2list (f + 1))).flatten) := by
      simp only [List.map_append, List.map_cons, List.flatten_append, List.flatten_cons]
      rfl
    have hev : evens (((T1 ++ NestT.node x 1 kids :: T2).map (flatten2list (f + 1))).flatten)
        = evens ((T1.map (flatten2list (f + 1))).flatten) ++ x :: evens
          ((kids.map (flatten2list f)).flatten ++ (T2.map (flatten2list (f + 1))).flatten) := by
      rw [hidg, evens_append _ _ hA]
      rfl
    have hod : odds (((T1 ++ NestT.node x 1 kids :: T2).map (flatten2list (f + 1))).flatten)
        = odds ((T1.map (flatten2list (f + 1))).flatten) ++ (1 : Int) :: odds
          ((kids.map (flatten2list f)).flatten ++ (T2.map (flatten2list (f + 1))).flatten) := by
      rw [hidg, odds_append _ _ hA]
      rfl
    apply hni
    rw [hi0]
    rw [evens_flat_pairs]
    refine List.mem_map.mpr ⟨(x, 1), ?_, rfl⟩
    refine List.mem_filter.mpr ⟨?_, List.elem_iff.mpr hxW⟩
    simp only [hev, hod]
    rw [List.zip_append (evens_odds_length _ hA)]
    refine List.mem_append.mpr (Or.inr ?_)
    simp [List.zip_cons_cons]

/-- C3 witness: on the counterexample edge set the free id 3 is the child
of an edge but never a parent. -/
theorem c3_witness :
    ((nest_notes_core 5 [(1, 2), (2, 1), (1, 3)] [1, 2, 3]).map NNParts.free) = some [3] ∧
      ∀ e ∈ [((1 : Int), (2 : Int)), (2, 1), (1, 3)], e.1 ≠ 3 := by
  constructor
  · decide
  · intro e he
    exact c3_free_never_parent 5 [(1, 2), (2, 1), (1, 3)] [1, 2, 3] ⟨[], [], [1, 2], [3]⟩ (by decide) 3 (by decide) e he

/-! ## C5: the style engine -/

theorem digitChar_ne {k : Nat} (hk : k < 10) :
    Nat.digitChar k ≠ '\x1b' ∧ Nat.digitChar k ≠ 'm' := by
  interval_cases k <;> decide

theorem natCharsAux_ne (f : Nat) : ∀ (n : Nat), ∀ c ∈ natCharsAux f n, c ≠ '\x1b' ∧ c ≠ 'm' := by
  induction f with
  | zero => simp [natCharsAux]
  | succ f ih =>
    intro n c hc
    unfold natCharsAux at hc
    split at hc
    · rename_i hlt
      obtain rfl := List.mem_singleton.mp hc
      exact digitChar_ne hlt
    · rcases List.mem_append.mp hc with h | h
      · exact ih _ c h
      · obtain rfl := List.mem_singleton.mp h
        exact digitChar_ne (Nat.mod_lt _ (by omega))

theorem natChars_ne_m (n : Nat) : ∀ c ∈ natChars n, c ≠ 'm' :=
  fun c hc => (natCharsAux_ne _ _ c hc).2

theorem strip_false_esc (r : Str) : stripA false ('\x1b' :: r) = stripA true r := by
  simp [stripA]

theorem strip_true_m (l : Str) : stripA true ('m' :: l) = stripA false l := by
  simp [stripA]

theorem strip_true_cons {c : Char} (hc : c ≠ 'm') (l : Str) :
    stripA true (c :: l) = stripA true l := by
  simp [stripA, hc]

theorem strip_true_skip {p : Str} (hp : ∀ c ∈ p, c ≠ 'm') (l : Str) :
    stripA true (p ++ l) = stripA true l := by
  induction p with
  | nil => rfl
  | cons c r ih =>
    rw [List.cons_append, strip_true_cons (hp c (List.mem_cons_self c r))]
    exact ih fun d hd => hp d (List.mem_cons_of_mem _ hd)

theorem strip_false_cons {c : Char} (hc : c ≠ '\x1b') (l : Str) :
    stripA false (c :: l) = c :: stripA false l := by
  simp [stripA, hc]

theorem strip_plain {p : Str} (hp : ∀ c ∈ p, c ≠ '\x1b') (l : Str) :
    stripA false (p ++ l) = p ++ stripA false l := by
  induction p with
  | nil => rfl
  | cons c r ih =>
    rw [List.cons_append, strip_false_cons (hp c (List.mem_cons_self c r)),
      ih fun d hd => hp d (List.mem_cons_of_mem _ hd), List.cons_append]

theorem strip_code (col st : Nat) (l : Str) :
    stripA false (style_code col st ++ l) = stripA false l := by
  unfold style_code
  simp only [List.cons_append, List.append_assoc, List.singleton_append]
  rw [strip_false_esc, strip_true_cons (by decide), strip_true_skip (natChars_ne_m st),
    strip_true_cons (by decide), strip_true_cons (by decide), strip_true_cons (by decide),
    strip_true_cons (by decide), strip_true_cons (by decide), strip_true_cons (by decide)]
  show stripA true (natChars col ++ 'm' :: ([] ++ l)) = stripA false l
  rw [strip_true_skip (natChars_ne_m col), strip_true_m]
  rfl

theorem strip_code_nil (col st : Nat) : stripA false (style_code col st) = [] := by
  have h := strip_code col st []
  rwa [List.append_nil] at h

theorem slice_glue (s : Str) (a b c : Nat) (hab : a ≤ b) (hbc : b ≤ c) :
    pySlice s a b ++ pySlice s b c = pySlice s a c := by
  unfold pySlice
  have h1 : s.take b = (s.take c).take b := by
    rw [List.take_take, Nat.min_eq_left hbc]
  rw [h1]
  by_cases h : a ≤ ((s.take c).take b).length
  · conv_rhs => rw [← List.take_append_drop b (s.take c)]
    rw [List.drop_append_of_le_length h]
  · push_neg at h
    have hlen : (s.take c).length ≤ a := by
      simp only [List.length_take] at h ⊢
      omega
    rw [List.drop_eq_nil_of_le (by simp only [List.length_take] at h ⊢; omega),
      List.drop_eq_nil_of_le hlen, List.drop_eq_nil_of_le (le_trans hlen hab)]
    rfl

/-- C5 counterexample: with styling enabled, `colorize_summary` is built
from slices `my_str[0:1] … my_str[22+sw:23+sw]`, so any character beyond
index `23 + sw` is dropped: stripping the escapes from the styled form of
a 27-character line at snippet width 3 does not recover the line.  (The
program's own summary lines are `24 + sw` characters long, so even they
lose their final character.) -/
theorem c5_counterexample :
    stripAnsi (colorize_summary true (fun _ => 0) 3 (List.replicate 27 'a') 0 0 0) ≠
      List.replicate 27 'a' := by decide

/-- C5 amended: with styling disabled the line passes through unchanged;
with styling enabled, for a line without embedded escape characters and
`|gen| ≤ sw`, stripping the inserted ANSI escape sequences recovers
exactly the first `23 + sw` characters of the input — so styling is
escape-wrapping plus truncation to `23 + sw` characters, and lines no
longer than `23 + sw` are recovered exactly. -/
theorem c5_style_passthrough (pal : Fin 9 → Nat) (sw : Nat) (s : Str) (gen : Int)
    (status_id : Fin 6) (trim_key : Nat)
    (hesc : '\x1b' ∉ s) (hgen : gen.natAbs ≤ sw) :
    colorize_summary false pal sw s gen status_id trim_key = s ∧
    stripAnsi (colorize_summary true pal sw s gen status_id trim_key) = s.take (23 + sw) := by
  have hslice : ∀ a b : Nat, ∀ c ∈ pySlice s a b, c ≠ '\x1b' := by
    intro a b c hc he
    exact hesc (he ▸ List.take_subset b s (List.drop_subset a _ hc))
  constructor
  · rfl
  · unfold colorize_summary stripAnsi
    simp only [if_true, eq_self_iff_true, List.append_assoc]
    rw [strip_code, strip_plain (hslice 0 1), strip_code, strip_plain (hslice 1 13),
      strip_code, strip_plain (hslice 13 16), strip_code, strip_plain (hslice 16 22),
      strip_code, strip_plain (hslice 22 (22 + gen.natAbs)),
      strip_code, strip_plain (hslice (22 + gen.natAbs) (22 + sw)),
      strip_code, strip_plain (hslice (22 + sw) (23 + sw)), strip_code_nil,
      List.append_nil]
    rw [slice_glue s (22 + gen.natAbs) (22 + sw) (23 + sw) (by omega) (by omega),
      slice_glue s 22 (22 + gen.natAbs) (23 + sw) (by omega) (by omega),
      slice_glue s 16 22 (23 + sw) (by omega) (by omega),
      slice_glue s 13 16 (23 + sw) (by omega) (by omega),
      slice_glue s 1 13 (23 + sw) (by omega) (by omega),
      slice_glue s 0 1 (23 + sw) (by omega) (by omega)]
    simp [pySlice]

/-- C5 witness: a 26-character line at snippet width 3 (so `23 + sw = 26`)
round-trips exactly through the style engine. -/
theorem c5_witness :
    ('\x1b' ∉ List.replicate 26 'a') ∧ ((0 : Int).natAbs ≤ 3) ∧
      colorize_summary false (fun _ => 0) 3 (List.replicate 26 'a') 0 0 0 =
        List.replicate 26 'a' ∧
      stripAnsi (colorize_summary true (fun _ => 0) 3 (List.replicate 26 'a') 0 0 0) =
        (List.replicate 26 'a').take (23 + 3) := by
  obtain ⟨h1, h2⟩ := c5_style_passthrough (fun _ => 0) 3 (List.replicate 26 'a') 0 0 0
    (by decide) (by decide)
  exact ⟨by decide, by decide, h1, h2⟩

/-! ## C4: search-term highlighting of a short line -/

theorem leadsWith_append : ∀ (sub s : Str), leadsWith sub s = true →
    sub ++ s.drop sub.length = s := by
  intro sub
  induction sub with
  | nil => intro s h; simp
  | cons a as ih =>
    intro s h
    cases s with
    | nil => simp [leadsWith] at h
    | cons b bs =>
      simp only [leadsWith, Bool.and_eq_true, decide_eq_true_eq] at h
      obtain ⟨rfl, h2⟩ := h
      simp only [List.cons_append, List.length_cons, List.drop_succ_cons, List.cons.injEq,
        true_and, eq_self_iff_true]
      exact ih bs h2

theorem splitSubAux_ne_nil (sep : Str) : ∀ (f : Nat) (s acc : Str),
    splitSubAux sep f s acc ≠ [] := by
  intro f
  induction f with
  | zero => intro s acc; simp [splitSubAux]
  | succ f ih =>
    intro s acc
    cases s with
    | nil => simp [splitSubAux]
    | cons c rest =>
      simp only [splitSubAux]
      split
      · simp
      · exact ih rest (c :: acc)

theorem joinWith_splitSubAux (sep : Str) (hsep : sep ≠ []) :
    ∀ (f : Nat) (s acc : Str), s.length < f →
      joinWith sep (splitSubAux sep f s acc) = acc.reverse ++ s := by
  intro f
  induction f with
  | zero => intro s acc h; simp at h
  | succ f ih =>
    intro s acc h
    cases s with
    | nil => simp [splitSubAux, joinWith]
    | cons c rest =>
      simp only [splitSubAux]
      split
      · rename_i hlw
        cases hs2 : splitSubAux sep f ((c :: rest).drop sep.length) [] with
        | nil => exact absurd hs2 (splitSubAux_ne_nil sep f _ _)
        | cons y ys =>
          rw [joinWith, ← hs2, ih _ _ ?_]
          · have hjoin := leadsWith_append sep (c :: rest) hlw
            simp only [List.reverse_nil, List.nil_append]
            rw [List.append_assoc, hjoin]
          · have hpos : 1 ≤ sep.length := List.length_pos.mpr hsep
            simp only [List.length_drop, List.length_cons]
            simp only [List.length_cons] at h
            omega
      · rw [ih rest (c :: acc) (by simp only [List.length_cons] at h; omega)]
        simp [List.reverse_cons, List.append_assoc]

theorem pySplit_pair {s sep a b : Str} (hsep : sep ≠ []) (h : pySplit s sep = [a, b]) :
    a ++ sep ++ b = s := by
  have hj := joinWith_splitSubAux sep hsep (s.length + 1) s [] (by omega)
  unfold pySplit at h
  rw [h] at hj
  simpa [joinWith] using hj

/-- C4 counterexample: the excerpt for line `"the quick brown fox"` and
term `"brown"` at a large snippet width is not the original line with
`BROWN` uppercased — the code splits `'~' + line + '~'` and in the short
branch keeps both `'~'` sentinels, printing `"~the quick BROWN fox~"`. -/
theorem c4_counterexample :
    excerpt_line 40 (("brown").toList) (("the quick brown fox").toList) =
        ("~the quick BROWN fox~").toList ∧
      ("~the quick BROWN fox~").toList ≠ ("the quick BROWN fox").toList :=
  ⟨by decide, by decide⟩

/-- C4 amended: for a (lowercased) matching line no longer than the
available width `sw − len(find)` in which the lowercased term occurs
exactly once (the split around the term has exactly two parts), the
printed excerpt is `'~' + line + '~'` with that occurrence uppercased in
place — no truncation, but with the two `'~'` sentinels kept. -/
theorem c4_excerpt_short_line (sw : Nat) (find line pre post : Str)
    (hne : find ≠ [])
    (hsplit : pySplit ('~' :: line ++ ['~']) (pyLower find) = [pre, post])
    (hshort : (line.length : Int) ≤ (sw : Int) - find.length) :
    excerpt_line sw find line = pre ++ pyUpper find ++ post ∧
      pre ++ pyLower find ++ post = '~' :: line ++ ['~'] := by
  have hne' : pyLower find ≠ [] := by
    intro h0
    exact hne (by simpa [pyLower] using congrArg List.length h0)
  refine ⟨?_, pySplit_pair hne' hsplit⟩
  simp only [excerpt_line, hsplit]
  rw [if_neg (by omega)]
  simp

/-- C4 witness: the concrete example from the claim, with the amended
output `"~the quick BROWN fox~"`. -/
theorem c4_witness :
    excerpt_line 40 (("brown").toList) (("the quick brown fox").toList) =
        ("~the quick ").toList ++ pyUpper (("brown").toList) ++ (" fox~").toList ∧
      ("~the quick ").toList ++ pyLower (("brown").toList) ++ (" fox~").toList =
        '~' :: ("the quick brown fox").toList ++ ['~'] :=
  c4_excerpt_short_line 40 (("brown").toList) (("the quick brown fox").toList)
    (("~the quick ").toList) ((" fox~").toList) (by decide) (by decide) (by decide)

end JotModel
